import Mathlib

/-!
Shallow embedding of `segtat/explorer.py` (class `ModelExplorer`) and proofs
about its orchestration logic: the train/test splitter, the fixed
learning-rate / checkpoint schedule of `fit`, the binarization step of
`validate`, and the `augmentation` loop.

Machine reals (numpy / torch floats) are modelled as rationals; Python's
`round` (banker's rounding) is modelled exactly on rationals.  Stateful
pieces (the epoch loop of `fit`, the RNG threaded through `augmentation`)
are modelled by explicit state passing.  Fallible numpy / torch operations
(shape-mismatched `np.concatenate`, `IndexError`, `UnboundLocalError`,
failed `torch.load`) are modelled with `Option` / `Except`.
-/

namespace Segtat

/-- Python's built-in `round` to an integer: round half to even. -/
def pyround (q : ℚ) : ℤ :=
  if q - ⌊q⌋ < 1/2 then ⌊q⌋
  else if 1/2 < q - ⌊q⌋ then ⌊q⌋ + 1
  else if ⌊q⌋ % 2 = 0 then ⌊q⌋ else ⌊q⌋ + 1

instance {ε α : Type} [DecidableEq ε] [DecidableEq α] : DecidableEq (Except ε α)
  | .ok x, .ok y =>
    if h : x = y then .isTrue (by rw [h])
    else .isFalse (fun hh => h (Except.ok.inj hh))
  | .ok _, .error _ => .isFalse (fun hh => Except.noConfusion hh)
  | .error _, .ok _ => .isFalse (fun hh => Except.noConfusion hh)
  | .error e, .error f =>
    if h : e = f then .isTrue (by rw [h])
    else .isFalse (fun hh => h (Except.error.inj hh))

/-- The size of the train part computed by `train_test`:
`train_ratio = round(len(dataset) * train_size)` (explorer.py line 148). -/
def trainRatio (n : ℕ) (train_size : ℚ) : ℕ := (pyround ((n : ℚ) * train_size)).toNat

/-- Embedding of `ModelExplorer.train_test` (explorer.py lines 138-157).

`x_train` / `y_train` are the per-sample slices of the two tensors (a sample
is opaque here).  `perm` stands for the permutation of `range n` drawn by
`torch.randperm` inside `torch.utils.data.random_split`; the split takes the
first `round(n * train_size)` entries of `perm` as the train indices and the
rest as test indices, then materializes both index lists by gathering
(`train.dataset[train.indices]`).  The `torch.utils.data.TensorDataset`
constructor asserts that the tensors have equal first dimension; that
assertion and the explicit `ValueError` are the two `Except.error` cases. -/
def train_test {α : Type} [Inhabited α] (x_train y_train : List α)
    (train_size : ℚ) (perm : List ℕ) :
    Except String ((List α × List α) × (List α × List α)) :=
  if train_size < 1/10 ∨ train_size > 99/100 then
    Except.error "train_size value must be value between 0.1 and 0.99"
  else if x_train.length ≠ y_train.length then
    Except.error "Size mismatch between tensors"
  else
    Except.ok
      (((perm.take (trainRatio x_train.length train_size)).map
          (fun i => (x_train.get? i).getD default),
        (perm.take (trainRatio x_train.length train_size)).map
          (fun i => (y_train.get? i).getD default)),
       ((perm.drop (trainRatio x_train.length train_size)).map
          (fun i => (x_train.get? i).getD default),
        (perm.drop (trainRatio x_train.length train_size)).map
          (fun i => (y_train.get? i).getD default)))

/-- Epoch index at which `fit` drops the learning rate:
`round(params['epochs'] * 0.8)` (explorer.py line 61). -/
def lrDropEpoch (epochs : ℕ) : ℕ := (pyround ((epochs : ℚ) * (8/10))).toNat

/-- The observable training-loop state of `ModelExplorer.fit`: the first
parameter group's learning rate of the optimizer, and the list of epoch
indices at which the intermediate checkpoint `prom.pth` was written. -/
structure FitState where
  lr : ℚ
  promSaves : List ℕ
  deriving Repr, DecidableEq

/-- One iteration of the epoch loop of `fit` (explorer.py lines 55-68),
restricted to its observable effects: after the train/valid passes, drop the
learning rate to `0.000002` when `i == round(epochs*0.8)`, and append a
`prom.pth` checkpoint write when `i` is one of 10, 20, 30, 40, 50. -/
def fitEpochStep (epochs : ℕ) (s : FitState) (i : ℕ) : FitState :=
  let s1 := if i = lrDropEpoch epochs then { s with lr := 2/1000000 } else s
  if i = 10 ∨ i = 20 ∨ i = 30 ∨ i = 40 ∨ i = 50 then
    { s1 with promSaves := s1.promSaves ++ [i] }
  else s1

/-- State of `fit`'s loop after the first `k` epochs (`for i in range(0, epochs)`),
starting from initial learning rate `lr0` and no checkpoints written. -/
def fitStates (epochs : ℕ) (lr0 : ℚ) (k : ℕ) : FitState :=
  (List.range k).foldl (fitEpochStep epochs) ⟨lr0, []⟩

/-- Embedding of `ModelExplorer.fit` (explorer.py lines 23-70): run all `epochs`
iterations, then write the final checkpoint `best_model.pth` (the `Bool`
component) and return the model object unchanged (the in-place training
mutations live inside the opaque model `m`). -/
def fitRun {μ : Type} (epochs : ℕ) (lr0 : ℚ) (m : μ) : FitState × Bool × μ :=
  (fitStates epochs lr0 epochs, true, m)

/-- An image, as produced by `tensor.numpy()`: a channels × rows × cols
array, modelled as nested lists over an arbitrary value type. -/
abbrev Img (α : Type) := List (List (List α))

/-- A 2-D channel slice has `h` rows of `w` entries each. -/
def gridShape {α : Type} (g : List (List α)) (h w : ℕ) : Bool :=
  g.length == h && g.all (fun row => row.length == w)

/-- An image has `c` channels, each an `h × w` grid. -/
def imgShape {α : Type} (img : Img α) (c h w : ℕ) : Bool :=
  img.length == c && img.all (fun ch => gridShape ch h w)

/-- A paired tensor dataset: parallel lists of feature images and label
images (`dataset.tensors[0]`, `dataset.tensors[1]`). -/
structure TensorDataset (α : Type) where
  features : List (Img α)
  targets : List (Img α)
  deriving DecidableEq

/-- Channel count of the first sample (`array.shape[1]`). -/
def headC {α : Type} (samples : List (Img α)) : ℕ :=
  (samples.head?.map List.length).getD 0

/-- Row count of the first sample's first channel (`array.shape[2]`). -/
def headH {α : Type} (samples : List (Img α)) : ℕ :=
  ((samples.head?.bind List.head?).map List.length).getD 0

/-- Column count of the first sample's first row (`array.shape[3]`). -/
def headW {α : Type} (samples : List (Img α)) : ℕ :=
  (((samples.head?.bind List.head?).bind List.head?).map List.length).getD 0

/-- The body of `augmentation`'s per-sample loop (explorer.py lines 179-187)
for the sample `(fi, ti)`: stack the feature channels and the label channels
(`np.concatenate([features, targets], axis=1)` restricted to sample `i`),
take the first `c` channels as the image and the single channel at index `c`
as the mask (an `IndexError`, i.e. `none`, when the stack has no channel
`c`), then apply the composed random transform, threading the RNG state `g`.
`tr` abstracts `albumentations.Compose([ShiftScaleRotate(), HorizontalFlip(),
VerticalFlip()])`, which consumes and advances the `random` module state. -/
def transformSample {α σ : Type} (tr : Img α → Img α → σ → Img α × Img α × σ)
    (c : ℕ) (fi ti : Img α) (g : σ) : Option ((Img α × Img α) × σ) :=
  let stacked := fi ++ ti
  match stacked.get? c with
  | none => none
  | some maskCh =>
    let out := tr (stacked.take c) [maskCh] g
    some ((out.1, out.2.1), out.2.2)

/-- Embedding of the `for i in range(0, len(features))` loop of `augmentation`: transform each
sample in order, threading one RNG state through the whole loop, and collect
the per-sample (augmented features, augmented label) pairs together with the
final RNG state. -/
def augLoop {α σ : Type} (tr : Img α → Img α → σ → Img α × Img α × σ)
    (c : ℕ) : List (Img α × Img α) → σ → Option (List (Img α × Img α) × σ)
  | [], g => some ([], g)
  | p :: rest, g =>
    match transformSample tr c p.1 p.2 g with
    | none => none
    | some (q, g2) => (augLoop tr c rest g2).map (fun r => (q :: r.1, r.2))

/-- Embedding of `ModelExplorer.augmentation` (explorer.py lines 159-233).

`seedFn` abstracts `random.seed`; `g0` is the ambient global RNG state at
call time, overwritten by `random.seed(7)` before the loop.  The outer
boolean check models the tensor well-formedness of the inputs together with
the shape compatibility required by `np.concatenate([features, targets],
axis=1)`; the check after the loop models the shape compatibility required
by the two final `np.concatenate` calls along axis 0.  On an empty dataset
the loop body never runs, so `augmented_all_features` is unbound and the
final concatenation raises `UnboundLocalError`: modelled by `none`. -/
def augmentation {α σ : Type} [DecidableEq α]
    (tr : Img α → Img α → σ → Img α × Img α × σ) (seedFn : ℕ → σ) (g0 : σ)
    (ds : TensorDataset α) : Option (TensorDataset α) :=
  let features := ds.features
  let targets := ds.targets
  let c := headC features
  let h := headH features
  let w := headW features
  let cy := headC targets
  if features.length == targets.length
      && features.all (fun f => imgShape f c h w)
      && targets.all (fun t => imgShape t cy h w) then
    match augLoop tr c (features.zip targets) (seedFn 7) with
    | none => none
    | some (pairs, _) =>
      if features.isEmpty then none
      else
        let augF := pairs.map (fun q => q.1)
        let augM := pairs.map (fun q => q.2)
        if augF.all (fun f => imgShape f c h w)
            && augM.all (fun m => imgShape m cy h w) then
          some ⟨features ++ augF, targets ++ augM⟩
        else none
  else none

/-- A concrete shape-preserving transform used to instantiate the abstract
albumentations composition in concrete evaluations: it keeps the image and
mask unchanged and advances the RNG state. -/
def idTransform : Img ℤ → Img ℤ → ℕ → Img ℤ × Img ℤ × ℕ :=
  fun img mask g => (img, mask, g + 1)

/-- A concrete stand-in for `random.seed`: the state is the seed itself. -/
def idSeed : ℕ → ℕ := fun s => s

/-- Truncation toward zero, the behaviour of numpy's float-to-integer cast. -/
def ratTrunc (q : ℚ) : ℤ := if 0 ≤ q then ⌊q⌋ else -⌊-q⌋

/-- The no-threshold binarization of `validate` (explorer.py line 94):
`pr_mask.squeeze().cpu().numpy().astype(np.uint8)` applied to one value —
truncation toward zero reduced modulo 256, not rounding. -/
def binarizeNoThreshold (v : ℚ) : ℕ := (ratTrunc v % 256).toNat

/-- The thresholded binarization of `validate` (explorer.py lines 96-98)
applied to one value: first `pr_mask[pr_mask < threshold] = 0`, then
`pr_mask[pr_mask >= threshold] = 1`, in that order, on the already
modified array. -/
def binarizeWithThreshold (t v : ℚ) : ℚ :=
  let v1 := if v < t then 0 else v
  if t ≤ v1 then 1 else v1

/-- Elementwise binarization of a predicted mask, as selected by the
`threshold` argument of `validate`. -/
def binarizeImg (threshold : Option ℚ) (img : Img ℚ) : Img ℚ :=
  match threshold with
  | none => img.map (fun ch => ch.map (fun row => row.map
      (fun v => (binarizeNoThreshold v : ℚ))))
  | some t => img.map (fun ch => ch.map (fun row => row.map
      (binarizeWithThreshold t)))

/-- The body of `ModelExplorer.validate` once a model `m` is in hand
(explorer.py lines 84-117): if `vis` is set, for each of the 5 draws of
`np.random.choice(len(test))` (abstracted by `choices`) predict on the
drawn sample, binarize, and display it next to the true label; then run one
external validation pass (`smp.utils.train.ValidEpoch`, abstracted by
`runEpoch`) over the test set.  The value collects the displayed
(predicted mask, true label) pairs and the epoch logs. -/
def validateBody {μ : Type} (predict : μ → Img ℚ → Img ℚ)
    (test : TensorDataset ℚ) (threshold : Option ℚ) (vis : Bool)
    (choices : ℕ → ℕ) (runEpoch : μ → TensorDataset ℚ → List (String × ℚ))
    (m : μ) : List (Img ℚ × Img ℚ) × List (String × ℚ) :=
  let visOut :=
    if vis then
      (List.range 5).map (fun k =>
        let n := choices k
        let featuresTensor := (test.features.get? n).getD default
        let trueLabel := (test.targets.get? n).getD default
        (binarizeImg threshold (predict m featuresTensor), trueLabel))
    else []
  (visOut, runEpoch m test)

/-- Embedding of `ModelExplorer.validate` (explorer.py lines 72-117): when `model` is
`none`, load it from `model_path` (`torch.load`, abstracted by `loadFn`,
with `none` for a load failure); otherwise use the supplied model and never
touch `model_path`. -/
def validateRun {μ : Type} (loadFn : String → Option μ)
    (predict : μ → Img ℚ → Img ℚ) (test : TensorDataset ℚ)
    (model_path : String) (model? : Option μ) (threshold : Option ℚ)
    (vis : Bool) (choices : ℕ → ℕ)
    (runEpoch : μ → TensorDataset ℚ → List (String × ℚ)) :
    Option (List (Img ℚ × Img ℚ) × List (String × ℚ)) :=
  match model? with
  | some m => some (validateBody predict test threshold vis choices runEpoch m)
  | none =>
    match loadFn model_path with
    | none => none
    | some m => some (validateBody predict test threshold vis choices runEpoch m)

theorem floor_le_pyround (q : ℚ) : ⌊q⌋ ≤ pyround q := by
  unfold pyround; split_ifs <;> omega

theorem pyround_le_floor_add_one (q : ℚ) : pyround q ≤ ⌊q⌋ + 1 := by
  unfold pyround; split_ifs <;> omega

theorem trainRatio_le (n : ℕ) (r : ℚ) (hr2 : r < 99/100) :
    trainRatio n r ≤ n := by
  unfold trainRatio
  rw [Int.toNat_le]
  rcases Nat.eq_zero_or_pos n with h0 | hpos
  · subst h0
    have : pyround ((0 : ℚ) * r) ≤ ⌊(0 : ℚ) * r⌋ + 1 := pyround_le_floor_add_one _
    simp only [Nat.cast_zero, zero_mul] at this ⊢
    have h1 : ⌊(0 : ℚ)⌋ = 0 := Int.floor_zero
    have h2 : pyround 0 = 0 := by unfold pyround; norm_num
    omega
  · have hq : (n : ℚ) * r < n := by
      have hn0 : (0 : ℚ) < n := by exact_mod_cast hpos
      nlinarith
    have hfl : ⌊(n : ℚ) * r⌋ < (n : ℤ) := Int.floor_lt.mpr (by exact_mod_cast hq)
    have := pyround_le_floor_add_one ((n : ℚ) * r)
    omega

/-- C1: for every train_size `r` in the open interval `(0.1, 0.99)` and every
paired dataset of size `n` with equal-length feature and label tensors,
`train_test` returns two paired datasets whose index sets (the first
`round(n*r)` entries of the split permutation, and the rest) are disjoint,
whose union covers all `n` original indices, and whose train part has
exactly `round(n*r)` samples. -/
theorem train_test_partition {α : Type} [Inhabited α]
    (n : ℕ) (x y : List α) (r : ℚ) (perm : List ℕ)
    (hx : x.length = n) (hy : y.length = n)
    (hr1 : 1/10 < r) (hr2 : r < 99/100)
    (hperm : perm.Perm (List.range n)) :
    train_test x y r perm = Except.ok
      (((perm.take (trainRatio n r)).map (fun i => (x.get? i).getD default),
        (perm.take (trainRatio n r)).map (fun i => (y.get? i).getD default)),
       ((perm.drop (trainRatio n r)).map (fun i => (x.get? i).getD default),
        (perm.drop (trainRatio n r)).map (fun i => (y.get? i).getD default)))
    ∧ (perm.take (trainRatio n r)).length = trainRatio n r
    ∧ (perm.take (trainRatio n r)).Disjoint (perm.drop (trainRatio n r))
    ∧ ∀ i : ℕ,
        (i ∈ perm.take (trainRatio n r) ∨ i ∈ perm.drop (trainRatio n r)) ↔ i < n := by
  have hk : trainRatio n r ≤ n := trainRatio_le n r hr2
  have hA : ¬(r < 1/10 ∨ r > 99/100) := by push_neg; constructor <;> linarith
  have hB : ¬(x.length ≠ y.length) := by rw [hx, hy]; exact fun h => h rfl
  have hplen : perm.length = n := by rw [hperm.length_eq, List.length_range]
  have hnodup : perm.Nodup := hperm.nodup_iff.mpr (List.nodup_range n)
  refine ⟨?_, ?_, ?_, ?_⟩
  · unfold train_test
    rw [if_neg hA, if_neg hB, hx]
  · rw [List.length_take, hplen]; omega
  · have h2 : (perm.take (trainRatio n r) ++ perm.drop (trainRatio n r)).Nodup := by
      rw [List.take_append_drop]; exact hnodup
    exact (List.nodup_append.mp h2).2.2
  · intro i
    have hmem : i ∈ perm.take (trainRatio n r) ∨ i ∈ perm.drop (trainRatio n r)
        ↔ i ∈ perm := by
      rw [← List.mem_append, List.take_append_drop]
    rw [hmem, hperm.mem_iff, List.mem_range]

/-- C1 witness: concrete split of a 4-sample dataset with ratio `1/2`;
`round(4 * 1/2) = 2`, so indices `[2, 0]` form the train part and `[3, 1]`
the test part of the permutation `[2, 0, 3, 1]`. -/
theorem train_test_partition_witness :
    train_test ([10, 20, 30, 40] : List ℤ) [1, 2, 3, 4] (1/2) [2, 0, 3, 1]
      = Except.ok (([30, 10], [3, 1]), ([40, 20], [4, 2])) := by
  have h := (train_test_partition 4 ([10, 20, 30, 40] : List ℤ) [1, 2, 3, 4]
    (1/2) [2, 0, 3, 1] rfl rfl (by norm_num) (by norm_num) (by decide)).1
  have hk : trainRatio 4 (1/2) = 2 := by
    have h2 : Int.toNat 2 = 2 := rfl
    norm_num [trainRatio, pyround, h2]
  rw [h, hk]; decide

/-- C2 counterexample: the claim asserts that `train_test` raises for every
`train_size` outside the OPEN interval `(0.1, 0.99)`, the bounds being
exclusive.  But `train_size = 0.99` is outside the open interval (the upper
bound is not below itself) and the code accepts it: the guard is
`train_size < 0.1 or train_size > 0.99`, so both bounds are inclusive. -/
theorem train_test_boundary_counterexample :
    ¬((1 : ℚ)/10 < 99/100 ∧ (99 : ℚ)/100 < 99/100)
    ∧ train_test ([10] : List ℤ) [1] (99/100) [0]
        = Except.ok (([10], [1]), ([], [])) := by
  constructor
  · intro h; exact absurd h.2 (by norm_num)
  · have hk : trainRatio 1 (99/100) = 1 := by norm_num [trainRatio, pyround, Int.toNat_ofNat]
    unfold train_test
    rw [if_neg (by norm_num), if_neg (by simp)]
    simp only [List.length_singleton, hk]
    decide

/-- C2 amended: the function `train_test` raises the descriptive `ValueError` exactly for
`train_size < 0.1` or `train_size > 0.99`; the bounds are INCLUSIVE
(`r = 0.1` and `r = 0.99` are accepted), while `r = 0.05` and `r = 1.0`
still raise. -/
theorem train_test_validation {α : Type} [Inhabited α]
    (x y : List α) (r : ℚ) (perm : List ℕ) :
    train_test x y r perm
        = Except.error "train_size value must be value between 0.1 and 0.99"
      ↔ (r < 1/10 ∨ 99/100 < r) := by
  unfold train_test
  split_ifs with h1 h2
  · exact iff_of_true rfl h1
  · refine iff_of_false (fun he => ?_) h1
    have := Except.error.inj he
    simp at this
  · refine iff_of_false ?_ h1
    intro he
    simp at he

/-- C4 counterexample: the claim says that with no threshold the prediction
is binarized by ROUNDING each value; but the code casts with
`.astype(np.uint8)`, which truncates toward zero: `0.7` becomes `0` while
rounding gives `1`.  The claim also says every value `v < t` maps to `0` for
every supplied threshold `t`; but the two in-place masked assignments run in
sequence, so for `t = 0` the value `-1/2 < t` is first zeroed and then the
zero satisfies `0 >= t` and is set to `1`. -/
theorem validate_binarize_counterexample :
    binarizeNoThreshold (7/10) = 0 ∧ pyround (7/10) = 1
    ∧ binarizeWithThreshold 0 (-(1/2)) = 1 := by
  refine ⟨?_, ?_, ?_⟩
  · have h0 : ratTrunc (7/10) = 0 := by
      unfold ratTrunc
      rw [if_pos (by norm_num)]
      norm_num
    unfold binarizeNoThreshold
    rw [h0]
    rfl
  · norm_num [pyround]
  · unfold binarizeWithThreshold
    norm_num

/-- C4 amended: for a supplied threshold `t > 0`, `validate` maps every
predicted value `v >= t` to `1` and every `v < t` to `0`; for a supplied
`t <= 0` the sequential masked assignments map every value to `1`; with no
threshold the prediction is binarized by the `uint8` cast, which truncates
toward zero (so every value in `[0, 1)` maps to `0`), not by rounding. -/
theorem validate_binarize :
    (∀ t v : ℚ, 0 < t → binarizeWithThreshold t v = if t ≤ v then 1 else 0)
    ∧ (∀ t v : ℚ, t ≤ 0 → binarizeWithThreshold t v = 1)
    ∧ (∀ v : ℚ, 0 ≤ v → v < 1 → binarizeNoThreshold v = 0) := by
  refine ⟨?_, ?_, ?_⟩
  · intro t v ht
    unfold binarizeWithThreshold
    by_cases hv : v < t
    · rw [if_pos hv, if_neg (by linarith), if_neg (by linarith)]
    · rw [if_neg hv, if_pos (by linarith), if_pos (by linarith)]
  · intro t v ht
    unfold binarizeWithThreshold
    by_cases hv : v < t
    · rw [if_pos hv, if_pos ht]
    · rw [if_neg hv, if_pos (by linarith)]
  · intro v h0 h1
    have hfl : ⌊v⌋ = 0 := by rw [Int.floor_eq_zero_iff]; exact ⟨h0, h1⟩
    unfold binarizeNoThreshold ratTrunc
    rw [if_pos h0, hfl]
    rfl

/-- C4 witness: concrete evaluations through `validate_binarize`:
`1/2`-thresholding sends `3/4` to `1` and `1/4` to `0`; a non-positive
threshold sends everything to `1`; the no-threshold cast sends `1/2` to `0`. -/
theorem validate_binarize_witness :
    binarizeWithThreshold (1/2) (3/4) = 1 ∧ binarizeWithThreshold (1/2) (1/4) = 0
    ∧ binarizeWithThreshold (-1) 5 = 1 ∧ binarizeNoThreshold (1/2) = 0 := by
  refine ⟨?_, ?_, ?_, ?_⟩
  · rw [validate_binarize.1 (1/2) (3/4) (by norm_num)]; norm_num
  · rw [validate_binarize.1 (1/2) (1/4) (by norm_num)]; norm_num
  · exact validate_binarize.2.1 (-1) 5 (by norm_num)
  · exact validate_binarize.2.2 (1/2) (by norm_num) (by norm_num)

theorem fitStates_succ (E : ℕ) (lr0 : ℚ) (k : ℕ) :
    fitStates E lr0 (k + 1) = fitEpochStep E (fitStates E lr0 k) k := by
  unfold fitStates
  rw [List.range_succ, List.foldl_append, List.foldl_cons, List.foldl_nil]

theorem fitEpochStep_lr (E : ℕ) (s : FitState) (i : ℕ) :
    (fitEpochStep E s i).lr = if i = lrDropEpoch E then 2/1000000 else s.lr := by
  unfold fitEpochStep
  split_ifs <;> rfl

theorem fitEpochStep_promSaves (E : ℕ) (s : FitState) (i : ℕ) :
    (fitEpochStep E s i).promSaves
      = s.promSaves
        ++ (if i = 10 ∨ i = 20 ∨ i = 30 ∨ i = 40 ∨ i = 50 then [i] else []) := by
  unfold fitEpochStep
  split_ifs <;> simp

/-- C5: during `fit` with total epoch count `E`, after the epoch with index
`round(0.8*E)` completes the optimizer's first parameter group's learning
rate equals the fixed constant `2e-6`, and after every earlier epoch (and
before the loop) the learning rate still equals its initial value — `fit`
has not modified it. -/
theorem fit_lr_schedule (E : ℕ) (lr0 : ℚ) (hm : lrDropEpoch E < E) :
    (fitStates E lr0 (lrDropEpoch E + 1)).lr = 2/1000000
    ∧ ∀ k, k ≤ lrDropEpoch E → (fitStates E lr0 k).lr = lr0 := by
  have hpre : ∀ k, k ≤ lrDropEpoch E → (fitStates E lr0 k).lr = lr0 := by
    intro k
    induction k with
    | zero => intro _; rfl
    | succ j ih =>
      intro hj
      rw [fitStates_succ, fitEpochStep_lr, if_neg (by omega)]
      exact ih (by omega)
  refine ⟨?_, hpre⟩
  rw [fitStates_succ, fitEpochStep_lr, if_pos rfl]

/-- C5 witness: with `E = 10` epochs the drop epoch is `round(8.0) = 8`;
after epoch 8 the learning rate is `2e-6`, while after epoch 4 (state index
5) it is still the initial `1/100`. -/
theorem fit_lr_schedule_witness :
    (fitStates 10 (1/100) 9).lr = 2/1000000
    ∧ (fitStates 10 (1/100) 5).lr = 1/100 := by
  have hdrop : lrDropEpoch 10 = 8 := by
    have h2 : Int.toNat 8 = 8 := rfl
    norm_num [lrDropEpoch, pyround, h2]
  have h := fit_lr_schedule 10 (1/100) (by rw [hdrop]; norm_num)
  constructor
  · have h1 := h.1
    rw [hdrop] at h1
    exact h1
  · exact h.2 5 (by rw [hdrop]; norm_num)

theorem fitStates_promSaves (E : ℕ) (lr0 : ℚ) (k : ℕ) :
    (fitStates E lr0 k).promSaves
      = (List.range k).filter
          (fun i => decide (i = 10 ∨ i = 20 ∨ i = 30 ∨ i = 40 ∨ i = 50)) := by
  induction k with
  | zero => rfl
  | succ j ih =>
    rw [fitStates_succ, fitEpochStep_promSaves, ih, List.range_succ,
      List.filter_append]
    congr 1
    by_cases hj : j = 10 ∨ j = 20 ∨ j = 30 ∨ j = 40 ∨ j = 50
    · rw [if_pos hj]; simp [hj]
    · rw [if_neg hj]; simp [hj]

/-- C6: the training driver `fit` writes the intermediate checkpoint `prom.pth` exactly at the
epoch indices among 10, 20, 30, 40, 50 that its loop actually reaches,
regardless of the configured total epoch count; after the loop it writes the
final checkpoint `best_model.pth` and returns the model; in particular, for
`epochs >= 11` an intermediate checkpoint was written at epoch 10. -/
theorem fit_checkpoints {μ : Type} (E : ℕ) (lr0 : ℚ) (m : μ) :
    (fitRun E lr0 m).1.promSaves
        = (List.range E).filter
            (fun i => decide (i = 10 ∨ i = 20 ∨ i = 30 ∨ i = 40 ∨ i = 50))
    ∧ (fitRun E lr0 m).2.1 = true
    ∧ (fitRun E lr0 m).2.2 = m
    ∧ (11 ≤ E → 10 ∈ (fitRun E lr0 m).1.promSaves) := by
  refine ⟨fitStates_promSaves E lr0 E, rfl, rfl, ?_⟩
  intro hE
  show 10 ∈ (fitStates E lr0 E).promSaves
  rw [fitStates_promSaves]
  rw [List.mem_filter]
  exact ⟨List.mem_range.mpr (by omega), by decide⟩

/-- C6 witness: running `fit` for 12 epochs writes `prom.pth` at epoch 10. -/
theorem fit_checkpoints_witness : 10 ∈ (fitRun 12 (1/10) (0 : ℕ)).1.promSaves :=
  (fit_checkpoints 12 (1/10) 0).2.2.2 (by norm_num)

/-- C9: when `validate` is called with a non-None model argument it never
loads from `model_path`: its result is identical for any two path values and
any two load functions (including ones that fail on every path), and the
call cannot fail with a model-load error. -/
theorem validate_model_path_ignored {μ : Type}
    (loadFn1 loadFn2 : String → Option μ) (predict : μ → Img ℚ → Img ℚ)
    (test : TensorDataset ℚ) (p1 p2 : String) (m : μ) (threshold : Option ℚ)
    (vis : Bool) (choices : ℕ → ℕ)
    (runEpoch : μ → TensorDataset ℚ → List (String × ℚ)) :
    validateRun loadFn1 predict test p1 (some m) threshold vis choices runEpoch
      = validateRun loadFn2 predict test p2 (some m) threshold vis choices runEpoch
    ∧ (validateRun loadFn1 predict test p1 (some m) threshold vis choices
        runEpoch).isSome = true :=
  ⟨rfl, rfl⟩

theorem imgShape_iff {α : Type} (img : Img α) (c h w : ℕ) :
    imgShape img c h w = true
      ↔ img.length = c ∧ ∀ ch ∈ img, ch.length = h ∧ ∀ row ∈ ch, row.length = w := by
  simp [imgShape, gridShape, List.all_eq_true, Bool.and_eq_true]

theorem headC_eq {α : Type} {samples : List (Img α)} {c h w : ℕ}
    (hne : samples ≠ []) (hall : ∀ s ∈ samples, imgShape s c h w = true) :
    headC samples = c := by
  obtain ⟨s0, rest, rfl⟩ := List.exists_cons_of_ne_nil hne
  have h0 := (imgShape_iff s0 c h w).mp (hall s0 (List.mem_cons_self s0 rest))
  simp [headC, h0.1]

theorem headH_eq {α : Type} {samples : List (Img α)} {c h w : ℕ}
    (hne : samples ≠ []) (hall : ∀ s ∈ samples, imgShape s c h w = true)
    (hc : 0 < c) : headH samples = h := by
  obtain ⟨s0, rest, rfl⟩ := List.exists_cons_of_ne_nil hne
  have h0 := (imgShape_iff s0 c h w).mp (hall s0 (List.mem_cons_self s0 rest))
  have hs0 : s0 ≠ [] := by
    intro hnil
    rw [hnil] at h0
    simp at h0
    omega
  obtain ⟨ch0, chs, rfl⟩ := List.exists_cons_of_ne_nil hs0
  have hch := h0.2 ch0 (List.mem_cons_self ch0 chs)
  simp [headH, hch.1]

theorem headW_eq {α : Type} {samples : List (Img α)} {c h w : ℕ}
    (hne : samples ≠ []) (hall : ∀ s ∈ samples, imgShape s c h w = true)
    (hc : 0 < c) (hh : 0 < h) : headW samples = w := by
  obtain ⟨s0, rest, rfl⟩ := List.exists_cons_of_ne_nil hne
  have h0 := (imgShape_iff s0 c h w).mp (hall s0 (List.mem_cons_self s0 rest))
  have hs0 : s0 ≠ [] := by
    intro hnil
    rw [hnil] at h0
    simp at h0
    omega
  obtain ⟨ch0, chs, rfl⟩ := List.exists_cons_of_ne_nil hs0
  have hch := h0.2 ch0 (List.mem_cons_self ch0 chs)
  have hch0 : ch0 ≠ [] := by
    intro hnil
    rw [hnil] at hch
    simp at hch
    omega
  obtain ⟨row0, rows, rfl⟩ := List.exists_cons_of_ne_nil hch0
  have hrow := hch.2 row0 (List.mem_cons_self row0 rows)
  simp [headW, hrow]

theorem transformSample_cons {α σ : Type}
    (tr : Img α → Img α → σ → Img α × Img α × σ) {c : ℕ} {fi : Img α}
    (t0 : List (List α)) (ts : Img α) (g : σ) (hfi : fi.length = c) :
    transformSample tr c fi (t0 :: ts) g
      = some (((tr fi [t0] g).1, (tr fi [t0] g).2.1), (tr fi [t0] g).2.2) := by
  have hget : (fi ++ t0 :: ts).get? c = some t0 := by
    rw [← hfi, List.get?_append_right (Nat.le_refl _)]
    simp
  have htake : (fi ++ t0 :: ts).take c = fi := by
    rw [← hfi]
    exact List.take_left fi (t0 :: ts)
  unfold transformSample
  simp only [hget, htake]

theorem augLoop_sound {α σ : Type}
    (tr : Img α → Img α → σ → Img α × Img α × σ) (c h w cm : ℕ)
    (htr : ∀ (img mask : Img α) (g : σ), imgShape img c h w = true →
      imgShape mask 1 h w = true →
      imgShape (tr img mask g).1 c h w = true
        ∧ imgShape (tr img mask g).2.1 cm h w = true) :
    ∀ (samples : List (Img α × Img α)) (g : σ),
      (∀ p ∈ samples, imgShape p.1 c h w = true ∧ p.2 ≠ []
        ∧ ∀ ch ∈ p.2, gridShape ch h w = true) →
      ∃ out gF, augLoop tr c samples g = some (out, gF)
        ∧ out.length = samples.length
        ∧ ∀ q ∈ out, imgShape q.1 c h w = true ∧ imgShape q.2 cm h w = true := by
  intro samples
  induction samples with
  | nil => exact fun g _ => ⟨[], g, rfl, rfl, by simp⟩
  | cons p rest ih =>
    intro g hs
    obtain ⟨hp1, hp2ne, hp2g⟩ := hs p (List.mem_cons_self p rest)
    obtain ⟨t0, ts, ht⟩ := List.exists_cons_of_ne_nil hp2ne
    have hfi : p.1.length = c := ((imgShape_iff p.1 c h w).mp hp1).1
    have hmask : imgShape [t0] 1 h w = true := by
      rw [imgShape_iff]
      refine ⟨rfl, ?_⟩
      intro ch hch
      have : ch = t0 := by simpa using hch
      subst this
      have := hp2g ch (by rw [ht]; exact List.mem_cons_self _ _)
      simpa [gridShape, List.all_eq_true] using this
    obtain ⟨hout1, hout2⟩ := htr p.1 [t0] g hp1 hmask
    obtain ⟨out, gF, hloop, hlen, hsh⟩ :=
      ih (tr p.1 [t0] g).2.2 (fun q hq => hs q (List.mem_cons_of_mem p hq))
    refine ⟨((tr p.1 [t0] g).1, (tr p.1 [t0] g).2.1) :: out, gF, ?_, by simp [hlen], ?_⟩
    · show augLoop tr c (p :: rest) g = _
      rw [augLoop, ht, transformSample_cons tr t0 ts g hfi]
      simp only [hloop, Option.map_some']
    · intro q hq
      rcases List.mem_cons.mp hq with hq0 | hqr
      · subst hq0; exact ⟨hout1, hout2⟩
      · exact hsh q hqr

theorem augmentation_eq {α σ : Type} [DecidableEq α]
    (tr : Img α → Img α → σ → Img α × Img α × σ) (seedFn : ℕ → σ) (g0 : σ)
    (ds : TensorDataset α) (c h w cy : ℕ)
    (hcF : headC ds.features = c) (hhF : headH ds.features = h)
    (hwF : headW ds.features = w) (hcyT : headC ds.targets = cy)
    (hcond : (ds.features.length == ds.targets.length
        && ds.features.all (fun f => imgShape f c h w)
        && ds.targets.all (fun t => imgShape t cy h w)) = true)
    (out : List (Img α × Img α)) (gF : σ)
    (hloop : augLoop tr c (ds.features.zip ds.targets) (seedFn 7) = some (out, gF))
    (hne : ds.features.isEmpty = false) :
    augmentation tr seedFn g0 ds
      = (if (out.map (fun q => q.1)).all (fun f => imgShape f c h w)
            && (out.map (fun q => q.2)).all (fun m => imgShape m cy h w) then
          some ⟨ds.features ++ out.map (fun q => q.1),
                ds.targets ++ out.map (fun q => q.2)⟩
        else none) := by
  unfold augmentation
  simp only [hcF, hhF, hwF, hcyT, hcond, hloop, hne, if_true, Bool.false_eq_true,
    if_false]

/-- C3: on every non-empty well-formed paired dataset (features of shape
`(c, h, w)` with `c, h > 0`, single-channel labels of shape `(1, h, w)`, and
a shape-preserving transform, as the albumentations geometric transforms
are), `augmentation` succeeds and returns the original samples followed by
the per-index transformed copies produced by the loop: sizes double, the
first `n` feature/label samples are identical to the input in order, and
every sample in both halves keeps the channel and spatial dimensions of the
corresponding input sample. -/
theorem augmentation_doubles {α σ : Type} [DecidableEq α]
    (tr : Img α → Img α → σ → Img α × Img α × σ) (seedFn : ℕ → σ) (g0 : σ)
    (ds : TensorDataset α) (c h w : ℕ) (hc : 0 < c) (hh : 0 < h)
    (hlen : ds.features.length = ds.targets.length)
    (hn : ds.features ≠ [])
    (hF : ∀ f ∈ ds.features, imgShape f c h w = true)
    (hT : ∀ t ∈ ds.targets, imgShape t 1 h w = true)
    (htr : ∀ (img mask : Img α) (g : σ), imgShape img c h w = true →
      imgShape mask 1 h w = true →
      imgShape (tr img mask g).1 c h w = true
        ∧ imgShape (tr img mask g).2.1 1 h w = true) :
    ∃ out gF,
      augLoop tr c (ds.features.zip ds.targets) (seedFn 7) = some (out, gF)
      ∧ out.length = ds.features.length
      ∧ augmentation tr seedFn g0 ds
          = some ⟨ds.features ++ out.map (fun q => q.1),
                  ds.targets ++ out.map (fun q => q.2)⟩
      ∧ (ds.features ++ out.map (fun q => q.1)).length = 2 * ds.features.length
      ∧ (ds.targets ++ out.map (fun q => q.2)).length = 2 * ds.features.length
      ∧ (ds.features ++ out.map (fun q => q.1)).take ds.features.length
          = ds.features
      ∧ (ds.targets ++ out.map (fun q => q.2)).take ds.features.length
          = ds.targets
      ∧ (∀ f ∈ ds.features ++ out.map (fun q => q.1), imgShape f c h w = true)
      ∧ (∀ t ∈ ds.targets ++ out.map (fun q => q.2), imgShape t 1 h w = true) := by
  have htne : ds.targets ≠ [] := by
    intro hnil
    rw [hnil] at hlen
    exact hn (List.length_eq_zero.mp (by simpa using hlen))
  have hsamples : ∀ p ∈ ds.features.zip ds.targets,
      imgShape p.1 c h w = true ∧ p.2 ≠ [] ∧ ∀ ch ∈ p.2, gridShape ch h w = true := by
    intro p hp
    obtain ⟨hp1, hp2⟩ := List.of_mem_zip hp
    have ht := (imgShape_iff p.2 1 h w).mp (hT p.2 hp2)
    refine ⟨hF p.1 hp1, ?_, ?_⟩
    · intro hnil
      rw [hnil] at ht
      simp at ht
    · intro ch hch
      rw [gridShape, Bool.and_eq_true, beq_iff_eq, List.all_eq_true]
      obtain ⟨hh1, hw1⟩ := ht.2 ch hch
      exact ⟨hh1, fun row hr => beq_iff_eq.mpr (hw1 row hr)⟩
  obtain ⟨out, gF, hloop, hlenout, hsh⟩ :=
    augLoop_sound tr c h w 1 htr (ds.features.zip ds.targets) (seedFn 7) hsamples
  have hzlen : (ds.features.zip ds.targets).length = ds.features.length := by
    rw [List.length_zip, hlen, min_self]
  have hcond : (ds.features.length == ds.targets.length
      && ds.features.all (fun f => imgShape f c h w)
      && ds.targets.all (fun t => imgShape t 1 h w)) = true := by
    rw [Bool.and_eq_true, Bool.and_eq_true, beq_iff_eq, List.all_eq_true,
      List.all_eq_true]
    exact ⟨⟨hlen, hF⟩, hT⟩
  have haugF : (out.map (fun q => q.1)).all (fun f => imgShape f c h w) = true := by
    rw [List.all_eq_true]
    intro f hf
    obtain ⟨q, hq, rfl⟩ := List.mem_map.mp hf
    exact (hsh q hq).1
  have haugM : (out.map (fun q => q.2)).all (fun m => imgShape m 1 h w) = true := by
    rw [List.all_eq_true]
    intro m hm2
    obtain ⟨q, hq, rfl⟩ := List.mem_map.mp hm2
    exact (hsh q hq).2
  have haug := augmentation_eq tr seedFn g0 ds c h w 1
    (headC_eq hn hF) (headH_eq hn hF hc) (headW_eq hn hF hc hh)
    (headC_eq htne hT) hcond out gF hloop
    (by rw [List.isEmpty_eq_false_iff_exists_mem]
        exact List.exists_mem_of_ne_nil ds.features hn)
  rw [haugF, haugM, Bool.and_self, if_pos rfl] at haug
  refine ⟨out, gF, hloop, by rw [hlenout, hzlen], haug, ?_, ?_, ?_, ?_, ?_, ?_⟩
  · simp [List.length_append, hlenout, hzlen]; ring
  · simp [List.length_append, hlenout, hzlen, hlen]; ring
  · exact List.take_left ds.features _
  · rw [hlen]
    exact List.take_left ds.targets _
  · intro f hf
    rcases List.mem_append.mp hf with hl | hr
    · exact hF f hl
    · obtain ⟨q, hq, rfl⟩ := List.mem_map.mp hr
      exact (hsh q hq).1
  · intro t ht
    rcases List.mem_append.mp ht with hl | hr
    · exact hT t hl
    · obtain ⟨q, hq, rfl⟩ := List.mem_map.mp hr
      exact (hsh q hq).2

/-- C3 witness: on the one-sample dataset with a `1 × 1 × 1` feature tensor
and a single-channel label, instantiating the transform with a concrete
shape-preserving function doubles the dataset, original first. -/
theorem augmentation_doubles_witness :
    augmentation idTransform idSeed 0 (⟨[[[[3]]]], [[[[0]]]]⟩ : TensorDataset ℤ)
      = some ⟨[[[[3]]], [[[3]]]], [[[[0]]], [[[0]]]]⟩ := by
  obtain ⟨out, gF, hloop, hlenout, haug, _⟩ :=
    augmentation_doubles idTransform idSeed 0
      (⟨[[[[3]]]], [[[[0]]]]⟩ : TensorDataset ℤ) 1 1 1 (by decide) (by decide)
      rfl (by decide) (by decide) (by decide)
      (fun img mask g h1 h2 => ⟨h1, h2⟩)
  have hout : augLoop idTransform 1
      ((⟨[[[[3]]]], [[[[0]]]]⟩ : TensorDataset ℤ).features.zip
        (⟨[[[[3]]]], [[[[0]]]]⟩ : TensorDataset ℤ).targets) (idSeed 7)
      = some ([([[[3]]], [[[0]]])], 8) := rfl
  have hp : (out, gF) = ([(([[[3]]] : Img ℤ), ([[[0]]] : Img ℤ))], (8 : ℕ)) :=
    Option.some.inj (hloop.symm.trans hout)
  injection hp with h1 h2
  subst h1
  rw [haug]
  decide

/-- C7: the method `augmentation` seeds its RNG once per call, before the per-sample
loop: its result is independent of the ambient RNG state at call time (two
separate calls on the same dataset draw the identical sequence of transform
choices), and the loop threads one generator state across samples — running
the loop on `s1 ++ s2` continues `s2` from the state `s1` left behind,
rather than reseeding per sample. -/
theorem augmentation_seed_determinism {α σ : Type} [DecidableEq α]
    (tr : Img α → Img α → σ → Img α × Img α × σ) (seedFn : ℕ → σ) :
    (∀ (g0 g1 : σ) (ds : TensorDataset α),
        augmentation tr seedFn g0 ds = augmentation tr seedFn g1 ds)
    ∧ ∀ (c : ℕ) (s1 s2 : List (Img α × Img α)) (g : σ),
        augLoop tr c (s1 ++ s2) g
          = (augLoop tr c s1 g).bind (fun r1 =>
              (augLoop tr c s2 r1.2).map (fun r2 => (r1.1 ++ r2.1, r2.2))) := by
  constructor
  · intro g0 g1 ds
    rfl
  · intro c s1
    induction s1 with
    | nil =>
      intro s2 g
      show augLoop tr c s2 g
        = (augLoop tr c s2 g).map (fun r2 => ([] ++ r2.1, r2.2))
      cases h : augLoop tr c s2 g with
      | none => rfl
      | some r => simp
    | cons p rest ih =>
      intro s2 g
      rw [List.cons_append, augLoop, augLoop]
      cases h : transformSample tr c p.1 p.2 g with
      | none => rfl
      | some qg =>
        obtain ⟨q, g2⟩ := qg
        dsimp only
        rw [ih s2 g2]
        cases h1 : augLoop tr c rest g2 with
        | none => rfl
        | some r1 =>
          simp only [Option.some_bind, Option.map_some', Option.map_map]
          rfl

/-- C8: calling `augmentation` on an empty dataset does not return an empty or a
doubled dataset: the loop body never runs, the accumulators are never
bound, and the final concatenation fails (`UnboundLocalError`, modelled as
`none`); consequently, every successful call had at least one sample. -/
theorem augmentation_empty {α σ : Type} [DecidableEq α]
    (tr : Img α → Img α → σ → Img α × Img α × σ) (seedFn : ℕ → σ) (g0 : σ) :
    augmentation tr seedFn g0 (⟨[], []⟩ : TensorDataset α) = none
    ∧ ∀ ds res : TensorDataset α,
        augmentation tr seedFn g0 ds = some res → 1 ≤ ds.features.length := by
  constructor
  · rfl
  · intro ds res hres
    by_contra hlt
    push_neg at hlt
    have hnil : ds.features = [] := List.length_eq_zero.mp (by omega)
    unfold augmentation at hres
    rw [hnil] at hres
    cases hts : ds.targets with
    | nil =>
      rw [hts] at hres
      simp [augLoop] at hres
    | cons t ts =>
      rw [hts] at hres
      simp at hres

/-- C8 witness: the empty dataset makes `augmentation` fail. -/
theorem augmentation_empty_witness :
    augmentation idTransform idSeed 0 (⟨[], []⟩ : TensorDataset ℤ) = none :=
  (augmentation_empty idTransform idSeed 0).1

/-- C10: the method `augmentation` extracts a single mask channel (the channel at index
equal to the feature channel count of the feature/label stack), so every
transformed label has exactly one channel; on a well-formed dataset whose
labels have `cy >= 2` channels, the loop still succeeds sample by sample,
but the final concatenation of the `cy`-channel originals with the
one-channel augmented labels fails, so the call returns `none`:
single-channel labels are a precondition for `augmentation` to succeed. -/
theorem augmentation_multichannel {α σ : Type} [DecidableEq α]
    (tr : Img α → Img α → σ → Img α × Img α × σ) (seedFn : ℕ → σ) (g0 : σ)
    (ds : TensorDataset α) (c cy h w : ℕ) (hc : 0 < c) (hh : 0 < h)
    (hcy : 2 ≤ cy)
    (hlen : ds.features.length = ds.targets.length)
    (hn : ds.features ≠ [])
    (hF : ∀ f ∈ ds.features, imgShape f c h w = true)
    (hT : ∀ t ∈ ds.targets, imgShape t cy h w = true)
    (htr : ∀ (img mask : Img α) (g : σ), imgShape img c h w = true →
      imgShape mask 1 h w = true →
      imgShape (tr img mask g).1 c h w = true
        ∧ imgShape (tr img mask g).2.1 1 h w = true) :
    (∃ out gF,
      augLoop tr c (ds.features.zip ds.targets) (seedFn 7) = some (out, gF)
      ∧ out.length = ds.features.length
      ∧ ∀ q ∈ out, (q.2).length = 1)
    ∧ augmentation tr seedFn g0 ds = none := by
  have htne : ds.targets ≠ [] := by
    intro hnil
    rw [hnil] at hlen
    exact hn (List.length_eq_zero.mp (by simpa using hlen))
  have hsamples : ∀ p ∈ ds.features.zip ds.targets,
      imgShape p.1 c h w = true ∧ p.2 ≠ []
        ∧ ∀ ch ∈ p.2, gridShape ch h w = true := by
    intro p hp
    obtain ⟨hp1, hp2⟩ := List.of_mem_zip hp
    have ht := (imgShape_iff p.2 cy h w).mp (hT p.2 hp2)
    refine ⟨hF p.1 hp1, ?_, ?_⟩
    · intro hnil
      rw [hnil] at ht
      simp at ht
      omega
    · intro ch hch
      rw [gridShape, Bool.and_eq_true, beq_iff_eq, List.all_eq_true]
      obtain ⟨hh1, hw1⟩ := ht.2 ch hch
      exact ⟨hh1, fun row hr => beq_iff_eq.mpr (hw1 row hr)⟩
  obtain ⟨out, gF, hloop, hlenout, hsh⟩ :=
    augLoop_sound tr c h w 1 htr (ds.features.zip ds.targets) (seedFn 7) hsamples
  have hzlen : (ds.features.zip ds.targets).length = ds.features.length := by
    rw [List.length_zip, hlen, min_self]
  have houtlen : out.length = ds.features.length := by rw [hlenout, hzlen]
  have houtne : out ≠ [] := by
    intro hnil
    rw [hnil] at houtlen
    exact hn (List.length_eq_zero.mp houtlen.symm)
  have hcond : (ds.features.length == ds.targets.length
      && ds.features.all (fun f => imgShape f c h w)
      && ds.targets.all (fun t => imgShape t cy h w)) = true := by
    rw [Bool.and_eq_true, Bool.and_eq_true, beq_iff_eq, List.all_eq_true,
      List.all_eq_true]
    exact ⟨⟨hlen, hF⟩, hT⟩
  have haug := augmentation_eq tr seedFn g0 ds c h w cy
    (headC_eq hn hF) (headH_eq hn hF hc) (headW_eq hn hF hc hh)
    (headC_eq htne hT) hcond out gF hloop
    (by rw [List.isEmpty_eq_false_iff_exists_mem]
        exact List.exists_mem_of_ne_nil ds.features hn)
  obtain ⟨q0, hq0⟩ := List.exists_mem_of_ne_nil out houtne
  have hq0len : q0.2.length = 1 := ((imgShape_iff q0.2 1 h w).mp (hsh q0 hq0).2).1
  have hB : (out.map (fun q => q.2)).all (fun m => imgShape m cy h w) = false := by
    rw [Bool.eq_false_iff]
    intro hX
    rw [List.all_eq_true] at hX
    have hX0 := hX q0.2 (List.mem_map_of_mem _ hq0)
    have := ((imgShape_iff q0.2 cy h w).mp hX0).1
    omega
  rw [hB, Bool.and_false] at haug
  refine ⟨⟨out, gF, hloop, houtlen, ?_⟩, by simpa using haug⟩
  intro q hq
  exact ((imgShape_iff q.2 1 h w).mp (hsh q hq).2).1

/-- C10 witness: a one-sample dataset with a two-channel label: the loop
produces a one-channel augmented label, and the whole call fails. -/
theorem augmentation_multichannel_witness :
    augmentation idTransform idSeed 0
      (⟨[[[[5]]]], [[[[1]], [[2]]]]⟩ : TensorDataset ℤ) = none :=
  (augmentation_multichannel idTransform idSeed 0
    (⟨[[[[5]]]], [[[[1]], [[2]]]]⟩ : TensorDataset ℤ) 1 2 1 1 (by decide)
    (by decide) (by decide) rfl (by decide) (by decide) (by decide)
    (fun img mask g h1 h2 => ⟨h1, h2⟩)).2

end Segtat
